import Mathlib

/-!
Verification of the `changelogger` repository: a shallow embedding of the
commit-classification, version-policy, section-rendering, changelog-merge and
remote-URL-parsing logic (`src/classify.rs`, `src/changelog.rs`, `src/git.rs`,
`src/main.rs`), followed by theorems settling the specification claims.

Strings are modelled as Lean `String`/`List Char`; the anchored regular
expressions of the source are unfolded into their (deterministic) matching
behaviour on character lists.
-/

namespace Changelogger

set_option maxRecDepth 16384

/-- Whitespace test modelling the ASCII part of the Rust regex class `\s`
(and of `char::is_whitespace` as used by `str::trim`). -/
def isWsp (c : Char) : Bool :=
  c = ' ' || c = '\t' || c = '\n' || c = '\r' || c = '\x0b' || c = '\x0c'

/-- Semantic version, modelling `semver::Version` restricted to the numeric
triple (the spec data model: "a standard three-component (major, minor, patch)
semantic version"). -/
structure Version where
  major : Nat
  minor : Nat
  patch : Nat
deriving DecidableEq, Repr

/-- Strict order on versions: lexicographic on (major, minor, patch), the
order of `semver::Version` on plain numeric triples. -/
def Version.Lt (a b : Version) : Prop :=
  a.major < b.major ∨
    (a.major = b.major ∧
      (a.minor < b.minor ∨ (a.minor = b.minor ∧ a.patch < b.patch)))

instance (a b : Version) : Decidable (Version.Lt a b) := by
  unfold Version.Lt; exact inferInstance

/-- Non-strict version order (`<=` of `semver::Version` on numeric triples). -/
def Version.Le (a b : Version) : Prop :=
  Version.Lt a b ∨ a = b

instance (a b : Version) : Decidable (Version.Le a b) := by
  unfold Version.Le; exact inferInstance

/-- Decimal digit list of a natural number, fuel-indexed so that it is
structural (the fuel `n + 1` always suffices). Models the decimal rendering
of Rust `u64` values by `Display`. -/
def natDecimalAux : Nat → Nat → List Char
  | 0, _ => []
  | fuel + 1, n =>
    if n < 10 then [Nat.digitChar n]
    else natDecimalAux fuel (n / 10) ++ [Nat.digitChar (n % 10)]

/-- Decimal digit list of a natural number (Rust `u64` `Display`). -/
def natDecimal (n : Nat) : List Char := natDecimalAux (n + 1) n

/-- `Display` of `semver::Version` on a numeric triple: `major.minor.patch`. -/
def versionToString (v : Version) : String :=
  ⟨natDecimal v.major ++ '.' :: natDecimal v.minor ++ '.' :: natDecimal v.patch⟩

/-- Split a character list at the first occurrence of `c`
(Rust `str::split_once`). -/
def splitOnce (c : Char) : List Char → Option (List Char × List Char)
  | [] => none
  | x :: xs =>
    if x = c then some ([], xs)
    else
      match splitOnce c xs with
      | some (a, b) => some (x :: a, b)
      | none => none

/-- Split a character list on every occurrence of `c` (separator dropped). -/
def splitOnChar (c : Char) : List Char → List (List Char)
  | [] => [[]]
  | x :: xs =>
    if x = c then [] :: splitOnChar c xs
    else
      match splitOnChar c xs with
      | [] => [[x]]
      | h :: t => (x :: h) :: t

/-- Numeric value of a decimal digit list. -/
def natOfDigits (cs : List Char) : Nat :=
  cs.foldl (fun acc c => acc * 10 + (c.toNat - 48)) 0

/-- A SemVer numeric identifier: nonempty, digits only, no leading zero
unless the identifier is exactly `0`. -/
def parseNumericPart (cs : List Char) : Option Nat :=
  if !cs.isEmpty && cs.all (·.isDigit) && (cs == ['0'] || cs.head? != some '0')
  then some (natOfDigits cs) else none

/-- Characters allowed in SemVer pre-release and build identifiers. -/
def isIdentChar (c : Char) : Bool := c.isAlphanum || c = '-'

/-- A valid SemVer pre-release identifier. -/
def validPreIdent (cs : List Char) : Bool :=
  !cs.isEmpty && cs.all isIdentChar &&
    (!(cs.all (·.isDigit)) || cs == ['0'] || cs.head? != some '0')

/-- A valid SemVer build identifier. -/
def validBuildIdent (cs : List Char) : Bool :=
  !cs.isEmpty && cs.all isIdentChar

/-- The `major.minor.patch` core of a semantic version: exactly three
dot-separated numeric identifiers. -/
def semverParseCore (core : List Char) : Option Version :=
  match splitOnChar '.' core with
  | [ma, mi, pa] =>
    match parseNumericPart ma, parseNumericPart mi, parseNumericPart pa with
    | some mj, some mn, some pt => some ⟨mj, mn, pt⟩
    | _, _, _ => none
  | _ => none

/-- Modelled from the spec: "a valid semantic version". This is the external
`semver` crate's `Version::parse` (SemVer 2.0 grammar
`major.minor.patch[-pre][+build]`), which is a dependency of the repository,
not part of `src/`; pre-release and build metadata are validated and then
dropped, keeping the numeric triple of the spec's data model. -/
def semverParse (cs : List Char) : Option Version :=
  let (beforeBuild, buildPart) :=
    match splitOnce '+' cs with
    | some (a, b) => (a, some b)
    | none => (cs, none)
  let (core, prePart) :=
    match splitOnce '-' beforeBuild with
    | some (a, b) => (a, some b)
    | none => (beforeBuild, none)
  match semverParseCore core with
  | some v =>
    let preOk := match prePart with
      | some pre => (splitOnChar '.' pre).all validPreIdent
      | none => true
    let buildOk := match buildPart with
      | some b => (splitOnChar '.' b).all validBuildIdent
      | none => true
    if preOk && buildOk then some v else none
  | none => none

/-! ## `src/classify.rs` -/

/-- The four commit impact categories (`CommitCategory` in `classify.rs`). -/
inductive CommitCategory where
  | Major
  | Minor
  | Patch
  | Ignore
deriving DecidableEq, Repr

/-- A commit record (`CommitInfo` in `git.rs`); the full hash and body are
unused by the core and omitted. -/
structure CommitInfo where
  short_id : String
  summary : String
deriving DecidableEq, Repr

/-- Remote repository link information (`RemoteInfo` in `git.rs`). -/
structure RemoteInfo where
  base_url : String
deriving DecidableEq, Repr

/-- `is_release_message`: a summary of the form `-> <tail>` where `<tail>`
with all leading `v` characters removed (`str::trim_start_matches('v')`)
parses as a semantic version. -/
def is_release_message (subject : String) : Option Version :=
  if "-> ".data.isPrefixOf subject.data then
    semverParse ((subject.data.drop 3).dropWhile (· = 'v'))
  else
    none

/-- ASCII-case-insensitive string equality
(Rust `str::eq_ignore_ascii_case`). -/
def eqIgnoreAsciiCase (a b : String) : Bool :=
  a.data.map Char.toLower == b.data.map Char.toLower

/-- `prefix_mapping`: the case-insensitive conventional-prefix table. -/
def prefix_mapping (pfx : String) : Option CommitCategory :=
  if eqIgnoreAsciiCase pfx "docs" || eqIgnoreAsciiCase pfx "doc" ||
      eqIgnoreAsciiCase pfx "style" || eqIgnoreAsciiCase pfx "chore" ||
      eqIgnoreAsciiCase pfx "test" then
    some CommitCategory.Ignore
  else if eqIgnoreAsciiCase pfx "tweak" || eqIgnoreAsciiCase pfx "tweaks" then
    some CommitCategory.Patch
  else if eqIgnoreAsciiCase pfx "fix" || eqIgnoreAsciiCase pfx "fixes" ||
      eqIgnoreAsciiCase pfx "perf" || eqIgnoreAsciiCase pfx "refactor" ||
      eqIgnoreAsciiCase pfx "patch" then
    some CommitCategory.Patch
  else if eqIgnoreAsciiCase pfx "feat" || eqIgnoreAsciiCase pfx "minor" then
    some CommitCategory.Minor
  else if eqIgnoreAsciiCase pfx "breaking" || eqIgnoreAsciiCase pfx "major" then
    some CommitCategory.Major
  else
    none

/-- Matching of the anchored regex `RE_SCOPE = ^([^(]+)\([^)]+\):\s+` of
`auto_classify`. Returns the first capture group (the type segment: everything
before the first `(`) and the remainder after the whole greedy match (what
`RE_SCOPE.replace(summary, "")` leaves). Each quantified class is followed by
a character it excludes, so the regex match is exactly this maximal-run scan. -/
def scopedSplit (s : List Char) : Option (List Char × List Char) :=
  let ty := s.takeWhile (· ≠ '(')
  if ty.isEmpty then none
  else
    match s.dropWhile (· ≠ '(') with
    | '(' :: r2 =>
      let scope := r2.takeWhile (· ≠ ')')
      if scope.isEmpty then none
      else
        match r2.dropWhile (· ≠ ')') with
        | ')' :: ':' :: r4 =>
          if (r4.takeWhile isWsp).isEmpty then none
          else some (ty, r4.dropWhile isWsp)
        | _ => none
    | _ => none

/-- Matching of the anchored regex `RE = ^([^:]+):\s+` of `auto_classify`:
the type segment is everything before the first `:`, which must be followed
by at least one whitespace character; the returned remainder is what
`RE.replace(summary, "")` leaves. -/
def simpleSplit (s : List Char) : Option (List Char × List Char) :=
  let ty := s.takeWhile (· ≠ ':')
  if ty.isEmpty then none
  else
    match s.dropWhile (· ≠ ':') with
    | ':' :: r2 =>
      if (r2.takeWhile isWsp).isEmpty then none
      else some (ty, r2.dropWhile isWsp)
    | _ => none

/-- Rules 2-4 of `auto_classify` (everything after the release-marker check):
bare tweak keyword, then the scoped conventional pattern, then - only when the
scoped pattern did not match at all - the simple conventional pattern. -/
def auto_classify_tail (commit : CommitInfo) : Option CommitCategory × CommitInfo :=
  if eqIgnoreAsciiCase commit.summary "tweak" ||
      eqIgnoreAsciiCase commit.summary "tweaks" then
    (some CommitCategory.Patch, commit)
  else
    match scopedSplit commit.summary.data with
    | some (ty, rest) =>
      match prefix_mapping ⟨ty⟩ with
      | some cat => (some cat, { commit with summary := ⟨rest⟩ })
      | none => (none, commit)
    | none =>
      match simpleSplit commit.summary.data with
      | some (ty, rest) =>
        match prefix_mapping ⟨ty⟩ with
        | some cat => (some cat, { commit with summary := ⟨rest⟩ })
        | none => (none, commit)
      | none => (none, commit)

/-- `auto_classify`: the summary mutation of the source is modelled by
returning the updated commit next to the classification result. -/
def auto_classify (commit : CommitInfo) : Option CommitCategory × CommitInfo :=
  if (is_release_message commit.summary).isSome then
    (some CommitCategory.Ignore, commit)
  else
    auto_classify_tail commit

/-! ## `src/changelog.rs` -/

/-- A calendar date; models `chrono::NaiveDate` for common-era dates. -/
structure NaiveDate where
  year : Nat
  month : Nat
  day : Nat
deriving DecidableEq, Repr

/-- Zero-pad a decimal rendering to two characters (`%m`, `%d`). -/
def pad2 (n : Nat) : String :=
  if n < 10 then ⟨'0' :: natDecimal n⟩ else ⟨natDecimal n⟩

/-- Zero-pad a decimal rendering to four characters (`%Y` for years
0 to 9999). -/
def pad4 (n : Nat) : String :=
  if n < 10 then ⟨'0' :: '0' :: '0' :: natDecimal n⟩
  else if n < 100 then ⟨'0' :: '0' :: natDecimal n⟩
  else if n < 1000 then ⟨'0' :: natDecimal n⟩
  else ⟨natDecimal n⟩

/-- `date.format("%Y-%m-%d")`. -/
def formatDate (d : NaiveDate) : String :=
  pad4 d.year ++ "-" ++ pad2 d.month ++ "-" ++ pad2 d.day

/-- Matching of `RE_SQUASHED = \s+\(#(\d+)\)` at the start of a character
list: one or more whitespace characters, then `(#`, one or more digits, `)`.
Returns the digit group and the remainder after the match. The whitespace and
digit runs are maximal because each is followed by a character its class
excludes. -/
def squashedAt (s : List Char) : Option (List Char × List Char) :=
  if (s.takeWhile isWsp).isEmpty then none
  else
    match s.dropWhile isWsp with
    | '(' :: '#' :: r2 =>
      let ds := r2.takeWhile (·.isDigit)
      if ds.isEmpty then none
      else
        match r2.dropWhile (·.isDigit) with
        | ')' :: r4 => some (ds, r4)
        | _ => none
    | _ => none

/-- Leftmost match of `RE_SQUASHED` anywhere in the list, as found by
`Regex::captures`; returns the digit group and the list with the matched text
removed (as left by `RE_SQUASHED.replace(title, "")`). -/
def squashedFind : List Char → Option (List Char × List Char)
  | [] => none
  | c :: cs =>
    match squashedAt (c :: cs) with
    | some (ds, rest) => some (ds, rest)
    | none =>
      match squashedFind cs with
      | some (ds, rest) => some (ds, c :: rest)
      | none => none

/-- Matching of `RE_TRAILING = \s+#(\d+)$` starting at the head of the list
and reaching its end: whitespace run, `#`, digit run, end of string. -/
def trailingAt (s : List Char) : Option (List Char) :=
  if (s.takeWhile isWsp).isEmpty then none
  else
    match s.dropWhile isWsp with
    | '#' :: r2 =>
      let ds := r2.takeWhile (·.isDigit)
      if ds.isEmpty then none
      else
        match r2.dropWhile (·.isDigit) with
        | [] => some ds
        | _ => none
    | _ => none

/-- Leftmost match of `RE_TRAILING` in the list; the match always extends to
the end, so removal keeps only the characters before the match. -/
def trailingFind : List Char → Option (List Char × List Char)
  | [] => none
  | c :: cs =>
    match trailingAt (c :: cs) with
    | some ds => some (ds, [])
    | none =>
      match trailingFind cs with
      | some (ds, rest) => some (ds, c :: rest)
      | none => none

/-- Issue extraction of `format_section`: the squashed pattern is tried
first; only when it yields nothing is the trailing pattern tried. Returns the
title with the matched text removed and the issue id, if any. -/
def extractIssue (title : List Char) : List Char × Option (List Char) :=
  match squashedFind title with
  | some (ds, rest) => (rest, some ds)
  | none =>
    match trailingFind title with
    | some (ds, rest) => (rest, some ds)
    | none => (title, none)

/-- The issue-reference fragment of a bullet (` ([#id](<base>issues/id))`
with a remote, ` (#id)` without, empty when no issue id was found). -/
def issueRefOf (remote : Option RemoteInfo) (issue_id : Option String) : String :=
  match remote, issue_id with
  | some r, some id => " ([#" ++ id ++ "](" ++ r.base_url ++ "issues/" ++ id ++ "))"
  | none, some id => " (#" ++ id ++ ")"
  | _, none => ""

/-- The commit-reference fragment of a bullet. -/
def commitRefOf (remote : Option RemoteInfo) (commit : CommitInfo) : String :=
  match remote with
  | some r =>
    " [`" ++ commit.short_id ++ "`](" ++ r.base_url ++ "commit/" ++ commit.short_id ++ ")"
  | none => " `" ++ commit.short_id ++ "`"

/-- The loop body of `format_section`: one `* <title>: <commit-ref><issue-ref>`
bullet line for one commit. -/
def formatCommitLine (remote : Option RemoteInfo) (commit : CommitInfo) : String :=
  let (title, ds) := extractIssue commit.summary.data
  let issue_id := ds.map (fun d => (⟨d⟩ : String))
  "* " ++ (⟨title⟩ : String) ++ ":" ++ commitRefOf remote commit ++
    issueRefOf remote issue_id ++ "\n"

/-- `format_section`: heading line, one bullet per commit in order, one blank
line at the end. -/
def format_section (heading : String) (commits : List CommitInfo)
    (remote : Option RemoteInfo) : String :=
  "\n### " ++ heading ++ "\n" ++
    String.join (commits.map (formatCommitLine remote)) ++ "\n"

/-- The grouped-commit mapping (`HashMap<CommitCategory, Vec<CommitInfo>>`):
presence of a key is distinguished from an empty list. -/
def Grouped : Type := CommitCategory → Option (List CommitInfo)

/-- The header line of `build_release_section`. -/
def build_header (new_version : Version) (date : NaiveDate)
    (remote : Option RemoteInfo) : String :=
  match remote with
  | some r =>
    "## [Version " ++ versionToString new_version ++ "](" ++ r.base_url ++
      "releases/tag/v" ++ versionToString new_version ++ ") (" ++
      formatDate date ++ ")\n"
  | none =>
    "## Version " ++ versionToString new_version ++ " (" ++ formatDate date ++ ")\n"

/-- The three category subsections of `build_release_section`: each rendered
exactly when its key is present in the grouped mapping. -/
def build_sections (remote : Option RemoteInfo) (grouped : Grouped) : String :=
  (match grouped CommitCategory.Major with
    | some list => format_section "Breaking changes" list remote
    | none => "") ++
  (match grouped CommitCategory.Minor with
    | some list => format_section "New features" list remote
    | none => "") ++
  (match grouped CommitCategory.Patch with
    | some list => format_section "Bug fixes" list remote
    | none => "")

/-- The trailing part of `build_release_section`: a comparison link when a
remote is present and the displayed previous version is not `0.0.0`, a single
newline otherwise. -/
def build_trailing (new_version last_version : Version)
    (remote : Option RemoteInfo) : String :=
  match remote with
  | some r =>
    if versionToString last_version ≠ "0.0.0" then
      "\n[...full changes](" ++ r.base_url ++ "compare/v" ++
        versionToString last_version ++ "...v" ++ versionToString new_version ++
        ")\n\n"
    else "\n"
  | none => "\n"

/-- `build_release_section`, assembled in the push order of the source. -/
def build_release_section (new_version last_version : Version)
    (date : NaiveDate) (remote : Option RemoteInfo) (grouped : Grouped) : String :=
  build_header new_version date remote ++ build_sections remote grouped ++
    build_trailing new_version last_version remote

/-- `write_changelog`: file-system access is modelled by taking the existing
content (`none` when the target does not exist) and returning the content
written back. -/
def write_changelog (existing : Option String) (new_section : String) : String :=
  let ex := existing.getD ""
  if ex.data.all isWsp then
    new_section ++ "\n--- Generated by changelogger\n"
  else
    new_section ++ "\n\n" ++ ex

/-! ## `src/git.rs` -/

/-- `str::trim_end_matches(c)`: remove every trailing occurrence of the
character `c`. -/
def trimEndChar (c : Char) (s : List Char) : List Char :=
  (s.reverse.dropWhile (· = c)).reverse

/-- Fuel-indexed worker for `str::trim_end_matches(pat)` with a string
pattern: repeatedly remove the suffix `pat`; the fuel `s.length` always
suffices. -/
def trimEndPatAux (pat : List Char) : Nat → List Char → List Char
  | 0, s => s
  | fuel + 1, s =>
    if !pat.isEmpty && pat.isSuffixOf s then
      trimEndPatAux pat fuel (s.take (s.length - pat.length))
    else s

/-- `str::trim_end_matches(pat)`: remove every trailing occurrence of the
pattern. -/
def trimEndPat (pat : List Char) (s : List Char) : List Char :=
  trimEndPatAux pat s.length s

/-- `parse_remote_url`: convert a `git@host:path` or `https://...` remote URL
into a base URL. -/
def parse_remote_url (url : String) : Option RemoteInfo :=
  if "git@".data.isPrefixOf url.data then
    match splitOnce ':' url.data with
    | some (host_part, path_part) =>
      let host := if "git@".data.isPrefixOf host_part then host_part.drop 4
        else host_part
      let path := trimEndPat ".git".data (trimEndChar '/' path_part)
      some ⟨"https://" ++ (⟨host⟩ : String) ++ "/" ++ (⟨path⟩ : String) ++ "/"⟩
    | none => none
  else if "https://".data.isPrefixOf url.data then
    let without_git := trimEndPat ".git".data url.data
    let with_slash :=
      if without_git.getLast? = some '/' then without_git
      else without_git ++ ['/']
    some ⟨(⟨with_slash⟩ : String)⟩
  else
    none

/-! ## `src/main.rs` -/

/-- The version-policy computation of `main` (lines 185-213): next version
from the previous version and the categories present in the grouped mapping. -/
def next_version (last_version : Version) (has_major has_minor : Bool) : Version :=
  let unstable := Version.Lt last_version ⟨1, 0, 0⟩
  if has_major then
    if unstable then ⟨last_version.major, last_version.minor + 1, 0⟩
    else ⟨last_version.major + 1, 0, 0⟩
  else if has_minor then
    if unstable then ⟨last_version.major, last_version.minor, last_version.patch + 1⟩
    else ⟨last_version.major, last_version.minor + 1, 0⟩
  else ⟨last_version.major, last_version.minor, last_version.patch + 1⟩

/-- The new-version selection of `main` (lines 174-213): an explicit version
is accepted only when strictly greater than the previous version, otherwise
the run aborts; without an explicit version the policy computes it. -/
def compute_new_version (explicit : Option Version) (last_version : Version)
    (has_major has_minor : Bool) : Except String Version :=
  match explicit with
  | some parsed =>
    if Version.Le parsed last_version then
      Except.error ("New version " ++ versionToString parsed ++
        " must be greater than previous version " ++ versionToString last_version)
    else Except.ok parsed
  | none => Except.ok (next_version last_version has_major has_minor)

/-! ## Spec-side definitions (for comparison against the source behaviour) -/

/-- The scoped conventional pattern as the spec words it: like `scopedSplit`
but with a type segment that "has no parentheses or colon". -/
def specScopedForm (s : String) : Bool :=
  match scopedSplit s.data with
  | some (ty, _) => ty.all (· ≠ ':')
  | none => false

/-- The release-marker shape as the claim words it: the whole summary is
`-> <version>` or `-> v<version>` with a single optional `v`. -/
def releaseMarkerSpecForm (s : String) : Bool :=
  if "-> ".data.isPrefixOf s.data then
    let rest := s.data.drop 3
    (semverParse rest).isSome ||
      (match rest with
       | 'v' :: r => (semverParse r).isSome
       | _ => false)
  else false

/-! ## Helper lemmas -/

theorem version_le_of_not_lt {a b : Version} (h : ¬ Version.Lt a b) : Version.Le b a := by
  obtain ⟨am, an, ap⟩ := a
  obtain ⟨bm, bn, bp⟩ := b
  simp only [Version.Le, Version.Lt, Version.mk.injEq] at *
  omega

theorem version_lt_of_not_le {a b : Version} (h : ¬ Version.Le a b) : Version.Lt b a := by
  obtain ⟨am, an, ap⟩ := a
  obtain ⟨bm, bn, bp⟩ := b
  simp only [Version.Le, Version.Lt, Version.mk.injEq] at *
  omega

theorem lt_next_version (last : Version) (hM hm : Bool) :
    Version.Lt last (next_version last hM hm) := by
  obtain ⟨m, n, p⟩ := last
  have h1 : Version.Lt ⟨m, n, p⟩ ⟨m + 1, 0, 0⟩ := by
    unfold Version.Lt; exact Or.inl (show m < m + 1 by omega)
  have h2 : Version.Lt ⟨m, n, p⟩ ⟨m, n + 1, 0⟩ := by
    unfold Version.Lt; exact Or.inr ⟨rfl, Or.inl (show n < n + 1 by omega)⟩
  have h3 : Version.Lt ⟨m, n, p⟩ ⟨m, n, p + 1⟩ := by
    unfold Version.Lt; exact Or.inr ⟨rfl, Or.inr ⟨rfl, show p < p + 1 by omega⟩⟩
  unfold next_version
  dsimp only
  split_ifs <;> first | exact h1 | exact h2 | exact h3

theorem natDecimalAux_ne_nil (fuel n : Nat) : natDecimalAux (fuel + 1) n ≠ [] := by
  unfold natDecimalAux
  split <;> simp

theorem natDecimal_ne_nil (n : Nat) : natDecimal n ≠ [] := natDecimalAux_ne_nil n n

theorem digitChar_isDigit {n : Nat} (h : n < 10) : (Nat.digitChar n).isDigit = true := by
  interval_cases n <;> decide

theorem digitChar_eq_zero {n : Nat} (h : n < 10) (h0 : Nat.digitChar n = '0') : n = 0 := by
  interval_cases n <;> simp_all <;> exact absurd h0 (by decide)

theorem natDecimalAux_isDigit (fuel : Nat) : ∀ n c, c ∈ natDecimalAux fuel n → c.isDigit = true := by
  induction fuel with
  | zero => intro n c hc; simp [natDecimalAux] at hc
  | succ f ih =>
    intro n c hc
    unfold natDecimalAux at hc
    split at hc
    · next h => simp at hc; subst hc; exact digitChar_isDigit h
    · next h =>
      rcases List.mem_append.mp hc with h1 | h2
      · exact ih _ _ h1
      · simp at h2; subst h2; exact digitChar_isDigit (Nat.mod_lt _ (by omega))

theorem natDecimal_isDigit {n : Nat} {c : Char} (hc : c ∈ natDecimal n) : c.isDigit = true :=
  natDecimalAux_isDigit (n + 1) n c hc

theorem natDecimal_eq_singleton_zero {n : Nat} (h : natDecimal n = ['0']) : n = 0 := by
  simp only [natDecimal, natDecimalAux] at h
  split at h
  · next hlt => exact digitChar_eq_zero hlt (by simpa using h)
  · next hge =>
    exfalso
    have hne : natDecimalAux n (n / 10) ≠ [] := by
      have h2 : n - 1 + 1 = n := by omega
      have := natDecimalAux_ne_nil (n - 1) (n / 10)
      rwa [h2] at this
    have hlen := congrArg List.length h
    simp only [List.length_append, List.length_cons, List.length_nil] at hlen
    have : (natDecimalAux n (n / 10)).length = 0 := by omega
    exact hne (List.eq_nil_of_length_eq_zero this)

theorem natDecimal_consume {k : Nat} {rest rest2 : List Char}
    (hk : natDecimal k ++ '.' :: rest = '0' :: '.' :: rest2) : k = 0 ∧ rest = rest2 := by
  cases hnd : natDecimal k with
  | nil => exact absurd hnd (natDecimal_ne_nil k)
  | cons x t =>
    rw [hnd] at hk
    cases t with
    | nil =>
      simp at hk
      obtain ⟨hx, hr⟩ := hk
      subst hx
      exact ⟨natDecimal_eq_singleton_zero hnd, hr⟩
    | cons y t2 =>
      simp at hk
      obtain ⟨hx, hy, -⟩ := hk
      have hmem : y ∈ natDecimal k := by rw [hnd]; simp
      have hdig := natDecimal_isDigit hmem
      rw [hy] at hdig
      exact absurd hdig (by decide)

theorem versionToString_eq_zero {v : Version} :
    versionToString v = "0.0.0" ↔ v = ⟨0, 0, 0⟩ := by
  constructor
  · intro h
    obtain ⟨m, n, p⟩ := v
    have hd : natDecimal m ++ '.' :: (natDecimal n ++ '.' :: natDecimal p) =
        ['0', '.', '0', '.', '0'] := by
      have := congrArg String.data h
      simpa [versionToString] using this
    obtain ⟨hm, hd2⟩ := natDecimal_consume hd
    obtain ⟨hn, hd3⟩ := natDecimal_consume hd2
    have hp := natDecimal_eq_singleton_zero hd3
    simp [hm, hn, hp]
  · intro h; subst h; decide

/-! ## Claim theorems -/

/-- C1: for every previous version `L` and nonempty category set (`Ignore`
excluded, represented by the presence flags), `next_version` follows the
decision table with `unstable = L < 1.0.0`: Major present bumps major (stable)
or minor (unstable); else Minor present bumps minor (stable) or patch
(unstable); else only Patch is present and the patch component is bumped.
Unstable is equivalent to `major = 0`, and the spec's concrete examples hold. -/
theorem c1_version_policy (L : Version) (hM hm hp : Bool)
    (hne : hM = true ∨ hm = true ∨ hp = true) :
    (hM = true → next_version L hM hm =
      if Version.Lt L ⟨1, 0, 0⟩ then ⟨L.major, L.minor + 1, 0⟩
      else ⟨L.major + 1, 0, 0⟩) ∧
    (hM = false → hm = true → next_version L hM hm =
      if Version.Lt L ⟨1, 0, 0⟩ then ⟨L.major, L.minor, L.patch + 1⟩
      else ⟨L.major, L.minor + 1, 0⟩) ∧
    (hM = false → hm = false → next_version L hM hm = ⟨L.major, L.minor, L.patch + 1⟩) ∧
    (Version.Lt L ⟨1, 0, 0⟩ ↔ L.major = 0) ∧
    next_version ⟨0, 3, 1⟩ true false = ⟨0, 4, 0⟩ ∧
    next_version ⟨0, 3, 1⟩ false true = ⟨0, 3, 2⟩ ∧
    next_version ⟨2, 1, 4⟩ true false = ⟨3, 0, 0⟩ ∧
    next_version ⟨2, 1, 4⟩ false true = ⟨2, 2, 0⟩ ∧
    next_version ⟨2, 1, 4⟩ false false = ⟨2, 1, 5⟩ := by
  refine ⟨?_, ?_, ?_, ?_, by decide, by decide, by decide, by decide, by decide⟩
  · intro h; subst h; simp [next_version]
  · intro h1 h2; subst h1; subst h2; simp [next_version]
  · intro h1 h2; subst h1; subst h2; simp [next_version]
  · obtain ⟨m, n, p⟩ := L
    unfold Version.Lt
    simp only [Version.mk.injEq]
    constructor
    · intro h; omega
    · intro h; omega

/-- Witness for C1 at a concrete stable version with Major present. -/
theorem c1_version_policy_witness :
    next_version ⟨2, 1, 4⟩ true false = ⟨3, 0, 0⟩ := by
  have h := (c1_version_policy ⟨2, 1, 4⟩ true false false (Or.inl rfl)).1 rfl
  rw [h]
  decide

/-- C4: every run that reaches rendering satisfies
`last_version < new_version`: the computed `next_version` is always strictly
greater, `compute_new_version` only returns `ok` on a strictly greater
version, and an explicit version that is not strictly greater is rejected
with a fatal error. -/
theorem c4_new_version_invariant :
    (∀ (last : Version) (hM hm : Bool), Version.Lt last (next_version last hM hm)) ∧
    (∀ (e : Option Version) (last : Version) (hM hm : Bool) (v : Version),
      compute_new_version e last hM hm = Except.ok v → Version.Lt last v) ∧
    (∀ (p last : Version) (hM hm : Bool), ¬ Version.Lt last p →
      compute_new_version (some p) last hM hm =
        Except.error ("New version " ++ versionToString p ++
          " must be greater than previous version " ++ versionToString last)) := by
  refine ⟨lt_next_version, ?_, ?_⟩
  · intro e last hM hm v h
    cases e with
    | none =>
      simp only [compute_new_version, Except.ok.injEq] at h
      rw [← h]
      exact lt_next_version last hM hm
    | some parsed =>
      simp only [compute_new_version] at h
      split_ifs at h with hle
      have hv : parsed = v := by injection h
      rw [← hv]
      exact version_lt_of_not_le hle
  · intro p last hM hm hlt
    simp only [compute_new_version]
    rw [if_pos (version_le_of_not_lt hlt)]

/-- Witness for C4 at concrete versions. -/
theorem c4_new_version_invariant_witness :
    Version.Lt ⟨1, 2, 3⟩ (next_version ⟨1, 2, 3⟩ false true) ∧
    Version.Lt ⟨0, 1, 0⟩ ⟨0, 2, 0⟩ ∧
    compute_new_version (some ⟨1, 0, 0⟩) ⟨1, 2, 3⟩ false false =
      Except.error ("New version " ++ versionToString ⟨1, 0, 0⟩ ++
        " must be greater than previous version " ++ versionToString ⟨1, 2, 3⟩) :=
  ⟨c4_new_version_invariant.1 ⟨1, 2, 3⟩ false true,
   c4_new_version_invariant.2.1 none ⟨0, 1, 0⟩ true false ⟨0, 2, 0⟩ rfl,
   c4_new_version_invariant.2.2 ⟨1, 0, 0⟩ ⟨1, 2, 3⟩ false false (by decide)⟩

/-- C7: the changelog merge writes `<section>\n--- Generated by changelogger\n`
when the target does not exist or holds only whitespace (both treated
identically), and otherwise prepends: `<section>\n\n<existing content>`, with
the existing content byte-for-byte unmodified. -/
theorem c7_changelog_merge (ex s : String) :
    write_changelog none s = s ++ "\n--- Generated by changelogger\n" ∧
    (ex.data.all isWsp = true →
      write_changelog (some ex) s = s ++ "\n--- Generated by changelogger\n" ∧
      write_changelog (some ex) s = write_changelog none s) ∧
    (ex.data.all isWsp = false →
      write_changelog (some ex) s = s ++ "\n\n" ++ ex) := by
  refine ⟨rfl, ?_, ?_⟩
  · intro h
    constructor
    · simp only [write_changelog, Option.getD_some]
      rw [if_pos h]
    · simp only [write_changelog, Option.getD_some, Option.getD_none]
      rw [if_pos h, if_pos (by decide)]
  · intro h
    simp only [write_changelog, Option.getD_some]
    rw [if_neg (by simp [h])]

/-- Witness for C7 with whitespace-only and non-whitespace existing content. -/
theorem c7_changelog_merge_witness :
    ("  \n".data.all isWsp = true ∧
      write_changelog (some "  \n") "S" = "S" ++ "\n--- Generated by changelogger\n") ∧
    ("OLD".data.all isWsp = false ∧
      write_changelog (some "OLD") "S" = "S" ++ "\n\n" ++ "OLD") :=
  ⟨⟨by decide, ((c7_changelog_merge "  \n" "S").2.1 (by decide)).1⟩,
   ⟨by decide, (c7_changelog_merge "OLD" "S").2.2 (by decide)⟩⟩

/-- C9: a commit whose summary matches no classification rule - not a release
marker, not a bare tweak keyword, and with no recognized type under either the
scoped or the simple conventional pattern (even when one of those patterns
matches syntactically) - is returned unclassified with its summary unchanged. -/
theorem c9_unrecognized_unchanged (c : CommitInfo)
    (h1 : is_release_message c.summary = none)
    (h2 : eqIgnoreAsciiCase c.summary "tweak" = false)
    (h3 : eqIgnoreAsciiCase c.summary "tweaks" = false)
    (h4 : ∀ ty rest, scopedSplit c.summary.data = some (ty, rest) →
      prefix_mapping ⟨ty⟩ = none)
    (h5 : ∀ ty rest, simpleSplit c.summary.data = some (ty, rest) →
      prefix_mapping ⟨ty⟩ = none) :
    auto_classify c = (none, c) := by
  unfold auto_classify auto_classify_tail
  rw [h1, h2, h3]
  simp only [Option.isSome_none, Bool.false_eq_true, if_false, Bool.false_or]
  cases hs : scopedSplit c.summary.data with
  | some pr =>
    obtain ⟨ty, rest⟩ := pr
    dsimp only
    rw [h4 ty rest hs]
  | none =>
    cases hp : simpleSplit c.summary.data with
    | some pr =>
      obtain ⟨ty, rest⟩ := pr
      dsimp only
      rw [h5 ty rest hp]
    | none => rfl

/-- Witness for C9 on a prefix-free commit message. -/
theorem c9_unrecognized_unchanged_witness :
    auto_classify ⟨"abc1234", "just a regular commit message"⟩ =
      (none, ⟨"abc1234", "just a regular commit message"⟩) :=
  c9_unrecognized_unchanged ⟨"abc1234", "just a regular commit message"⟩
    (by decide) (by decide) (by decide)
    (fun ty rest h => nomatch h) (fun ty rest h => nomatch h)

/-- C2 counterexample: `fix: a(b): c` matches the simple pattern with the
recognized type `fix`, and does not match the spec's scoped pattern (whose
type segment must contain no colon) - so under the claim the simple pattern
would apply and classify it as Patch - yet the code's scoped regex, whose type
segment is everything before the first `(` and may contain colons, does match
(with unrecognized type `fix: a`), so the simple pattern is never tried and
the commit is left unclassified and unmodified. -/
theorem c2_counterexample :
    auto_classify ⟨"abc1234", "fix: a(b): c"⟩ = (none, ⟨"abc1234", "fix: a(b): c"⟩) ∧
    simpleSplit "fix: a(b): c".data = some ("fix".data, "a(b): c".data) ∧
    prefix_mapping "fix" = some CommitCategory.Patch ∧
    specScopedForm "fix: a(b): c" = false := by
  decide

/-- C2 as amended: a scoped-pattern match (type = everything before the first
`(`, colons allowed) with a recognized type classifies and rewrites the
summary to the rest; the simple pattern applies only when the scoped regex
does not match at all; a scoped-pattern match with an unrecognized type
yields no classification and no rewrite, without falling back to the simple
pattern. -/
theorem c2_amended (c : CommitInfo)
    (h1 : is_release_message c.summary = none)
    (h2 : eqIgnoreAsciiCase c.summary "tweak" = false)
    (h3 : eqIgnoreAsciiCase c.summary "tweaks" = false) :
    (∀ ty rest cat, scopedSplit c.summary.data = some (ty, rest) →
      prefix_mapping ⟨ty⟩ = some cat →
      auto_classify c = (some cat, { c with summary := ⟨rest⟩ })) ∧
    (scopedSplit c.summary.data = none →
      ∀ ty rest cat, simpleSplit c.summary.data = some (ty, rest) →
        prefix_mapping ⟨ty⟩ = some cat →
        auto_classify c = (some cat, { c with summary := ⟨rest⟩ })) ∧
    (∀ ty rest, scopedSplit c.summary.data = some (ty, rest) →
      prefix_mapping ⟨ty⟩ = none →
      auto_classify c = (none, c)) := by
  have hbase : auto_classify c = auto_classify_tail c := by
    unfold auto_classify
    rw [h1]
    rfl
  refine ⟨?_, ?_, ?_⟩
  · intro ty rest cat hs hmap
    rw [hbase]
    unfold auto_classify_tail
    rw [h2, h3, hs]
    simp only [Bool.false_or, Bool.false_eq_true, if_false]
    rw [hmap]
  · intro hs ty rest cat hp hmap
    rw [hbase]
    unfold auto_classify_tail
    rw [h2, h3, hs, hp]
    simp only [Bool.false_or, Bool.false_eq_true, if_false]
    rw [hmap]
  · intro ty rest hs hmap
    rw [hbase]
    unfold auto_classify_tail
    rw [h2, h3, hs]
    simp only [Bool.false_or, Bool.false_eq_true, if_false]
    rw [hmap]

/-- Witness for C2 (amended) on a scoped and a multi-colon simple commit. -/
theorem c2_amended_witness :
    auto_classify ⟨"a", "feat(api): add new endpoint"⟩ =
      (some CommitCategory.Minor, ⟨"a", "add new endpoint"⟩) ∧
    auto_classify ⟨"a", "fix: handle error: invalid input"⟩ =
      (some CommitCategory.Patch, ⟨"a", "handle error: invalid input"⟩) :=
  ⟨(c2_amended ⟨"a", "feat(api): add new endpoint"⟩ (by decide) (by decide) (by decide)).1
      "feat".data "add new endpoint".data CommitCategory.Minor (by decide) (by decide),
   (c2_amended ⟨"a", "fix: handle error: invalid input"⟩ (by decide) (by decide) (by decide)).2.1
      (by decide) "fix".data "handle error: invalid input".data CommitCategory.Patch
      (by decide) (by decide)⟩

/-- C3 counterexample: `-> vv1.2.3` is not of the claim's release-marker shape
(arrow, one space, at most one `v`, then a valid version), so under the claim
it would fall through and - matching no later rule - stay unclassified; yet the
code strips every leading `v` (`trim_start_matches`) and classifies it as
`Ignore`. -/
theorem c3_counterexample :
    auto_classify ⟨"abc1234", "-> vv1.2.3"⟩ =
      (some CommitCategory.Ignore, ⟨"abc1234", "-> vv1.2.3"⟩) ∧
    releaseMarkerSpecForm "-> vv1.2.3" = false := by
  decide

theorem splitOnce_some {c : Char} :
    ∀ {l a b : List Char}, splitOnce c l = some (a, b) → l = a ++ c :: b := by
  intro l
  induction l with
  | nil => intro a b h; simp [splitOnce] at h
  | cons x xs ih =>
    intro a b h
    simp only [splitOnce] at h
    split_ifs at h with hx
    · simp only [Option.some.injEq, Prod.mk.injEq] at h
      obtain ⟨ha, hb⟩ := h
      subst hx; subst hb
      rw [← ha]
      rfl
    · cases hs : splitOnce c xs with
      | none => rw [hs] at h; exact absurd h (by simp)
      | some pr =>
        obtain ⟨a2, b2⟩ := pr
        rw [hs] at h
        simp only [Option.some.injEq, Prod.mk.injEq] at h
        obtain ⟨ha, hb⟩ := h
        subst hb
        rw [← ha, List.cons_append]
        rw [ih hs]

theorem splitOnChar_ne_nil (c : Char) : ∀ l : List Char, splitOnChar c l ≠ [] := by
  intro l
  induction l with
  | nil => simp [splitOnChar]
  | cons x xs ih =>
    simp only [splitOnChar]
    split_ifs
    · simp
    · cases hs : splitOnChar c xs with
      | nil => simp
      | cons h2 t2 => simp

theorem splitOnChar_head {c : Char} :
    ∀ {l hd : List Char} {t : List (List Char)}, splitOnChar c l = hd :: t →
      hd = l.takeWhile (· ≠ c) := by
  intro l
  induction l with
  | nil =>
    intro hd t h
    simp only [splitOnChar, List.cons.injEq] at h
    obtain ⟨h1, -⟩ := h
    subst h1
    rfl
  | cons x xs ih =>
    intro hd t h
    simp only [splitOnChar] at h
    split_ifs at h with hx
    · simp only [List.cons.injEq] at h
      obtain ⟨h1, -⟩ := h
      subst h1
      subst hx
      simp [List.takeWhile_cons]
    · cases hs : splitOnChar c xs with
      | nil => exact absurd hs (splitOnChar_ne_nil c xs)
      | cons h2 t2 =>
        rw [hs] at h
        simp only [List.cons.injEq] at h
        obtain ⟨h1, -⟩ := h
        subst h1
        rw [List.takeWhile_cons, if_pos (by simpa using hx), ih hs]

theorem takeWhile_cons_head {p : Char → Bool} {l : List Char} {x : Char} {t : List Char}
    (h : l.takeWhile p = x :: t) : ∃ t2, l = x :: t2 := by
  cases l with
  | nil => simp at h
  | cons y ys =>
    rw [List.takeWhile_cons] at h
    split_ifs at h with hy
    simp only [List.cons.injEq] at h
    obtain ⟨h1, -⟩ := h
    subst h1
    exact ⟨ys, rfl⟩

theorem parseNumericPart_shape {ma : List Char} {mj : Nat}
    (hma : parseNumericPart ma = some mj) :
    ∃ d t, ma = d :: t ∧ d.isDigit = true := by
  simp only [parseNumericPart] at hma
  split_ifs at hma with hcond
  simp only [Bool.and_eq_true, Bool.not_eq_true'] at hcond
  obtain ⟨⟨hne, hall⟩, -⟩ := hcond
  cases ma with
  | nil => simp at hne
  | cons d t =>
    refine ⟨d, t, rfl, ?_⟩
    have := List.all_eq_true.mp hall d (by simp)
    simpa using this

theorem semverParseCore_head {core : List Char} {v : Version}
    (h : semverParseCore core = some v) :
    ∃ d t, core = d :: t ∧ d.isDigit = true := by
  unfold semverParseCore at h
  cases hsp : splitOnChar '.' core with
  | nil => exact absurd hsp (splitOnChar_ne_nil '.' core)
  | cons ma r1 =>
    rw [hsp] at h
    cases r1 with
    | nil => simp at h
    | cons mi r2 =>
      cases r2 with
      | nil => simp at h
      | cons pa r3 =>
        cases r3 with
        | cons x r4 => simp at h
        | nil =>
          dsimp only at h
          cases hma : parseNumericPart ma with
          | none => rw [hma] at h; simp at h
          | some mj =>
            obtain ⟨d, t, hdt, hdig⟩ := parseNumericPart_shape hma
            have hhd : ma = core.takeWhile (· ≠ '.') := splitOnChar_head hsp
            rw [hdt] at hhd
            obtain ⟨t2, ht2⟩ := takeWhile_cons_head hhd.symm
            exact ⟨d, t2, ht2, hdig⟩

theorem semverParse_head {cs : List Char} {v : Version} (h : semverParse cs = some v) :
    ∃ d t, cs = d :: t ∧ d.isDigit = true := by
  unfold semverParse at h
  have main : ∀ (core tail : List Char), core ++ tail = cs →
      (∃ d t, core = d :: t ∧ d.isDigit = true) →
      ∃ d t, cs = d :: t ∧ d.isDigit = true := by
    intro core tail hct hd
    obtain ⟨d, t, hdt, hdig⟩ := hd
    subst hdt
    exact ⟨d, t ++ tail, by rw [← hct]; rfl, hdig⟩
  cases hb : splitOnce '+' cs with
  | some prb =>
    obtain ⟨a, b⟩ := prb
    rw [hb] at h
    dsimp only at h
    have hcs := (splitOnce_some hb).symm
    cases hm : splitOnce '-' a with
    | some prm =>
      obtain ⟨a2, b2⟩ := prm
      rw [hm] at h
      dsimp only at h
      have ha := (splitOnce_some hm).symm
      cases hc : semverParseCore a2 with
      | none => rw [hc] at h; simp at h
      | some w =>
        refine main a2 (('-' :: b2) ++ '+' :: b) ?_ (semverParseCore_head hc)
        rw [← List.append_assoc, ha, hcs]
    | none =>
      rw [hm] at h
      dsimp only at h
      cases hc : semverParseCore a with
      | none => rw [hc] at h; simp at h
      | some w => exact main a ('+' :: b) hcs (semverParseCore_head hc)
  | none =>
    rw [hb] at h
    dsimp only at h
    cases hm : splitOnce '-' cs with
    | some prm =>
      obtain ⟨a2, b2⟩ := prm
      rw [hm] at h
      dsimp only at h
      have ha := (splitOnce_some hm).symm
      cases hc : semverParseCore a2 with
      | none => rw [hc] at h; simp at h
      | some w => exact main a2 ('-' :: b2) ha (semverParseCore_head hc)
    | none =>
      rw [hm] at h
      dsimp only at h
      cases hc : semverParseCore cs with
      | none => rw [hc] at h; simp at h
      | some w => exact main cs [] (by simp) (semverParseCore_head hc)

theorem dropWhile_replicate_append (n : Nat) (c : Char) (l : List Char) :
    List.dropWhile (· = c) (List.replicate n c ++ l) = List.dropWhile (· = c) l := by
  induction n with
  | zero => rfl
  | succ k ih =>
    rw [List.replicate_succ, List.cons_append, List.dropWhile_cons]
    simp [ih]

theorem takeWhile_eq_replicate (c : Char) (t : List Char) :
    t.takeWhile (· = c) = List.replicate (t.takeWhile (· = c)).length c := by
  rw [List.eq_replicate_iff]
  exact ⟨rfl, fun b hb => by simpa using List.mem_takeWhile_imp hb⟩

/-- C3 as amended: the release-marker rule classifies as `Ignore`, without
rewriting the summary, exactly the summaries that are `-> ` followed by any
number (including zero) of `v` characters and then a valid semantic version;
every other summary falls through to the later rules unchanged. -/
theorem c3_amended (c : CommitInfo) :
    ((is_release_message c.summary).isSome = true →
      auto_classify c = (some CommitCategory.Ignore, c)) ∧
    ((is_release_message c.summary).isSome = false →
      auto_classify c = auto_classify_tail c) ∧
    ((is_release_message c.summary).isSome = true ↔
      ∃ n ver, c.summary.data = "-> ".data ++ (List.replicate n 'v' ++ ver) ∧
        (semverParse ver).isSome = true) := by
  refine ⟨?_, ?_, ?_, ?_⟩
  · intro h
    unfold auto_classify
    rw [h]
    rfl
  · intro h
    unfold auto_classify
    rw [h]
    rfl
  · intro h
    unfold is_release_message at h
    split_ifs at h with hpre
    · have hpre2 : "-> ".data <+: c.summary.data := by simpa using hpre
      obtain ⟨t, ht⟩ := hpre2
      have hdrop : c.summary.data.drop 3 = t := by
        rw [← ht]
        exact List.drop_left' rfl
      rw [hdrop] at h
      refine ⟨(t.takeWhile (· = 'v')).length, t.dropWhile (· = 'v'), ?_, h⟩
      rw [← takeWhile_eq_replicate, List.takeWhile_append_dropWhile, ht]
    · exact absurd h (by simp)
  · intro hex
    obtain ⟨n, ver, hsum, hver⟩ := hex
    unfold is_release_message
    rw [if_pos]
    · have hdrop : c.summary.data.drop 3 = List.replicate n 'v' ++ ver := by
        rw [hsum]
        exact List.drop_left' rfl
      rw [hdrop, dropWhile_replicate_append]
      obtain ⟨w, hw⟩ := Option.isSome_iff_exists.mp hver
      obtain ⟨d, t2, hdt, hdig⟩ := semverParse_head hw
      rw [hdt, List.dropWhile_cons, if_neg, ← hdt]
      · exact hver
      · simp only [decide_eq_true_eq]
        intro hdv
        rw [hdv] at hdig
        exact absurd hdig (by decide)
    · rw [hsum]
      simp

/-- Witness for C3 (amended): a single-`v` release marker classifies as
`Ignore` unrewritten, and a non-marker summary is handled by the later rules. -/
theorem c3_amended_witness :
    auto_classify ⟨"x", "-> v1.2.3"⟩ = (some CommitCategory.Ignore, ⟨"x", "-> v1.2.3"⟩) ∧
    auto_classify ⟨"x", "plain message"⟩ = auto_classify_tail ⟨"x", "plain message"⟩ :=
  ⟨(c3_amended ⟨"x", "-> v1.2.3"⟩).1 (by decide),
   (c3_amended ⟨"x", "plain message"⟩).2.1 (by decide)⟩

/-- C5: issue references are extracted by trying the squashed pattern
`\s+\(#digits\)` first, anywhere in the title, and the trailing pattern
`\s+#digits$` only when the squashed one finds nothing; the matched text is
removed and the bullet is `* <title>: <commit-ref><issue-ref>`. In particular
`fix: bug (#42)` classified and rendered with the remote base
`https://github.com/user/repo/` yields the linked bullet and the output
contains no bare `(#42)`. -/
theorem c5_issue_extraction (remote : Option RemoteInfo) (c : CommitInfo)
    (ds rest : List Char) :
    (squashedFind c.summary.data = some (ds, rest) →
      formatCommitLine remote c =
        "* " ++ (⟨rest⟩ : String) ++ ":" ++ commitRefOf remote c ++
          issueRefOf remote (some ⟨ds⟩) ++ "\n") ∧
    (squashedFind c.summary.data = none → trailingFind c.summary.data = some (ds, rest) →
      formatCommitLine remote c =
        "* " ++ (⟨rest⟩ : String) ++ ":" ++ commitRefOf remote c ++
          issueRefOf remote (some ⟨ds⟩) ++ "\n") ∧
    (squashedFind c.summary.data = none → trailingFind c.summary.data = none →
      formatCommitLine remote c =
        "* " ++ c.summary ++ ":" ++ commitRefOf remote c ++ "\n") ∧
    auto_classify ⟨"abc1234", "fix: bug (#42)"⟩ =
      (some CommitCategory.Patch, ⟨"abc1234", "bug (#42)"⟩) ∧
    format_section "Bug fixes" [⟨"abc1234", "bug (#42)"⟩]
        (some ⟨"https://github.com/user/repo/"⟩) =
      "\n### Bug fixes\n* bug: [`abc1234`](https://github.com/user/repo/commit/abc1234) ([#42](https://github.com/user/repo/issues/42))\n\n" ∧
    ¬ ("(#42)".data <:+: (format_section "Bug fixes" [⟨"abc1234", "bug (#42)"⟩]
        (some ⟨"https://github.com/user/repo/"⟩)).data) := by
  refine ⟨?_, ?_, ?_, by decide, by decide, by decide⟩
  · intro hs
    unfold formatCommitLine extractIssue
    rw [hs]
    cases remote <;> rfl
  · intro hs htr
    unfold formatCommitLine extractIssue
    rw [hs, htr]
    cases remote <;> rfl
  · intro hs htr
    unfold formatCommitLine extractIssue
    rw [hs, htr]
    cases remote with
    | none =>
      show _ = "* " ++ c.summary ++ ":" ++ commitRefOf none c ++ "\n"
      cases hsum : c.summary with
      | mk dat =>
        simp [issueRefOf, String.append_empty]
    | some r =>
      cases hsum : c.summary with
      | mk dat =>
        simp [issueRefOf, String.append_empty]

/-- Witness for C5: squashed form beats trailing form, trailing form applies
when the squashed one is absent, and a bare title gets no issue reference. -/
theorem c5_issue_extraction_witness :
    formatCommitLine none ⟨"id1", "bug (#7) more #9"⟩ = "* bug more #9: `id1` (#7)\n" ∧
    formatCommitLine none ⟨"id2", "fix crash #12"⟩ = "* fix crash: `id2` (#12)\n" ∧
    formatCommitLine none ⟨"id3", "plain title"⟩ = "* plain title: `id3`\n" := by
  refine ⟨?_, ?_, ?_⟩
  · have h := (c5_issue_extraction none ⟨"id1", "bug (#7) more #9"⟩
      "7".data "bug more #9".data).1 (by decide)
    rw [h]; decide
  · have h := (c5_issue_extraction none ⟨"id2", "fix crash #12"⟩
      "12".data "fix crash".data).2.1 (by decide) (by decide)
    rw [h]; decide
  · have h := (c5_issue_extraction none ⟨"id3", "plain title"⟩ [] []).2.2.1
      (by decide) (by decide)
    rw [h]; decide

/-- C10: the section renderer emits a category's `### <name>` heading whenever
the key is present in the grouped mapping, even when its commit list is empty -
for each of Major (`Breaking changes`), Minor (`New features`) and Patch
(`Bug fixes`) the heading is then followed by no bullets, so "subsection
present only when the category has a commit" is an obligation of the grouping
caller. -/
theorem c10_empty_category_heading (nv lv : Version) (d : NaiveDate)
    (r : Option RemoteInfo) (g : Grouped) :
    (format_section "Breaking changes" [] r = "\n### Breaking changes\n\n" ∧
     format_section "New features" [] r = "\n### New features\n\n" ∧
     format_section "Bug fixes" [] r = "\n### Bug fixes\n\n") ∧
    (g CommitCategory.Major = some [] →
      "\n### Breaking changes\n\n".data <:+: (build_release_section nv lv d r g).data) ∧
    (g CommitCategory.Minor = some [] →
      "\n### New features\n\n".data <:+: (build_release_section nv lv d r g).data) ∧
    (g CommitCategory.Patch = some [] →
      "\n### Bug fixes\n\n".data <:+: (build_release_section nv lv d r g).data) := by
  have hfsM : format_section "Breaking changes" [] r = "\n### Breaking changes\n\n" := by
    cases r <;> rfl
  have hfsN : format_section "New features" [] r = "\n### New features\n\n" := by
    cases r <;> rfl
  have hfsP : format_section "Bug fixes" [] r = "\n### Bug fixes\n\n" := by
    cases r <;> rfl
  refine ⟨⟨hfsM, hfsN, hfsP⟩, ?_, ?_, ?_⟩
  · intro h
    unfold build_release_section build_sections
    rw [h]
    dsimp only
    rw [hfsM]
    refine ⟨(build_header nv d r).data,
      ((match g CommitCategory.Minor with
        | some list => format_section "New features" list r
        | none => "") ++
       (match g CommitCategory.Patch with
        | some list => format_section "Bug fixes" list r
        | none => "") ++ build_trailing nv lv r).data, ?_⟩
    simp only [String.data_append, List.append_assoc]
  · intro h
    unfold build_release_section build_sections
    rw [h]
    dsimp only
    rw [hfsN]
    refine ⟨(build_header nv d r ++
      (match g CommitCategory.Major with
        | some list => format_section "Breaking changes" list r
        | none => "")).data,
      ((match g CommitCategory.Patch with
        | some list => format_section "Bug fixes" list r
        | none => "") ++ build_trailing nv lv r).data, ?_⟩
    simp only [String.data_append, List.append_assoc]
  · intro h
    unfold build_release_section build_sections
    rw [h]
    dsimp only
    rw [hfsP]
    refine ⟨(build_header nv d r ++
      (match g CommitCategory.Major with
        | some list => format_section "Breaking changes" list r
        | none => "") ++
      (match g CommitCategory.Minor with
        | some list => format_section "New features" list r
        | none => "")).data,
      (build_trailing nv lv r).data, ?_⟩
    simp only [String.data_append, List.append_assoc]

/-- Witness for C10 on a grouping that maps each of the three rendered
categories to the empty list. -/
theorem c10_empty_category_heading_witness :
    ("\n### Breaking changes\n\n".data <:+:
      (build_release_section ⟨1, 0, 0⟩ ⟨0, 9, 0⟩ ⟨2024, 1, 1⟩ none
        (fun _ => some [])).data) ∧
    ("\n### New features\n\n".data <:+:
      (build_release_section ⟨1, 0, 0⟩ ⟨0, 9, 0⟩ ⟨2024, 1, 1⟩ none
        (fun _ => some [])).data) ∧
    ("\n### Bug fixes\n\n".data <:+:
      (build_release_section ⟨1, 0, 0⟩ ⟨0, 9, 0⟩ ⟨2024, 1, 1⟩ none
        (fun _ => some [])).data) :=
  ⟨(c10_empty_category_heading ⟨1, 0, 0⟩ ⟨0, 9, 0⟩ ⟨2024, 1, 1⟩ none
      (fun _ => some [])).2.1 rfl,
   (c10_empty_category_heading ⟨1, 0, 0⟩ ⟨0, 9, 0⟩ ⟨2024, 1, 1⟩ none
      (fun _ => some [])).2.2.1 rfl,
   (c10_empty_category_heading ⟨1, 0, 0⟩ ⟨0, 9, 0⟩ ⟨2024, 1, 1⟩ none
      (fun _ => some [])).2.2.2 rfl⟩

/-- C6 counterexample: with a remote present and `last_version = 0.0.0` the
renderer appends only a blank line, but the full output can still contain the
substring `compare/v0.0.0` - here a commit title supplies it - so the claim's
blanket "the output does not contain the substring" fails. -/
theorem c6_counterexample :
    "compare/v0.0.0".data <:+:
      (build_release_section ⟨0, 1, 0⟩ ⟨0, 0, 0⟩ ⟨2024, 1, 1⟩
        (some ⟨"https://github.com/user/repo/"⟩)
        (fun c => if c = CommitCategory.Patch then
          some [⟨"abc1234", "see compare/v0.0.0"⟩] else none)).data := by
  decide

/-- C6 as amended: with a remote and a displayed previous version other than
`0.0.0` the section is the body followed by exactly the comparison-link text;
with a remote and previous version `0.0.0` the appended trailing text is
exactly one newline (no comparison link is ever appended - though the body may
still mention `compare/v0.0.0` if a commit title or the base URL contains it);
without a remote the appended trailing text is exactly one newline. -/
theorem c6_amended (nv lv : Version) (d : NaiveDate) (g : Grouped) (r : RemoteInfo) :
    (lv ≠ ⟨0, 0, 0⟩ →
      build_release_section nv lv d (some r) g =
        build_header nv d (some r) ++ build_sections (some r) g ++
          ("\n[...full changes](" ++ r.base_url ++ "compare/v" ++
            versionToString lv ++ "...v" ++ versionToString nv ++ ")\n\n")) ∧
    (lv = ⟨0, 0, 0⟩ →
      build_trailing nv lv (some r) = "\n" ∧
      build_release_section nv lv d (some r) g =
        build_header nv d (some r) ++ build_sections (some r) g ++ "\n") ∧
    (build_trailing nv lv none = "\n" ∧
      build_release_section nv lv d none g =
        build_header nv d none ++ build_sections none g ++ "\n") := by
  refine ⟨?_, ?_, rfl, rfl⟩
  · intro hne
    unfold build_release_section build_trailing
    dsimp only
    rw [if_pos]
    intro hv
    exact hne (versionToString_eq_zero.mp hv)
  · intro h0
    subst h0
    have ht : build_trailing nv ⟨0, 0, 0⟩ (some r) = "\n" := by
      unfold build_trailing
      dsimp only
      rw [if_neg]
      intro hv
      exact hv (versionToString_eq_zero.mpr rfl)
    refine ⟨ht, ?_⟩
    unfold build_release_section
    rw [ht]

/-- Witness for C6 (amended) at concrete versions with and without the
`0.0.0` previous version. -/
theorem c6_amended_witness :
    build_release_section ⟨2, 0, 0⟩ ⟨1, 9, 9⟩ ⟨2024, 2, 20⟩
        (some ⟨"https://github.com/user/repo/"⟩) (fun _ => none) =
      build_header ⟨2, 0, 0⟩ ⟨2024, 2, 20⟩ (some ⟨"https://github.com/user/repo/"⟩) ++
        build_sections (some ⟨"https://github.com/user/repo/"⟩) (fun _ => none) ++
        ("\n[...full changes](" ++ "https://github.com/user/repo/" ++ "compare/v" ++
          versionToString ⟨1, 9, 9⟩ ++ "...v" ++ versionToString ⟨2, 0, 0⟩ ++ ")\n\n") ∧
    build_trailing ⟨1, 0, 0⟩ ⟨0, 0, 0⟩ (some ⟨"https://github.com/user/repo/"⟩) = "\n" :=
  ⟨(c6_amended ⟨2, 0, 0⟩ ⟨1, 9, 9⟩ ⟨2024, 2, 20⟩ (fun _ => none)
      ⟨"https://github.com/user/repo/"⟩).1 (by decide),
   ((c6_amended ⟨1, 0, 0⟩ ⟨0, 0, 0⟩ ⟨2024, 2, 20⟩ (fun _ => none)
      ⟨"https://github.com/user/repo/"⟩).2.1 rfl).1⟩

theorem splitOnce_none {c : Char} : ∀ {l : List Char}, c ∉ l → splitOnce c l = none := by
  intro l
  induction l with
  | nil => intro h; rfl
  | cons x xs ih =>
    intro h
    simp only [List.mem_cons, not_or] at h
    simp only [splitOnce]
    rw [if_neg (fun he => h.1 he.symm)]
    rw [ih h.2]

theorem splitOnce_append_no {c : Char} :
    ∀ {a : List Char} (b : List Char), c ∉ a → splitOnce c (a ++ c :: b) = some (a, b) := by
  intro a
  induction a with
  | nil =>
    intro b h
    simp [splitOnce]
  | cons x xs ih =>
    intro b h
    simp only [List.mem_cons, not_or] at h
    simp only [List.cons_append, splitOnce, List.append_eq]
    rw [if_neg (fun he => h.1 he.symm), ih b h.2]

theorem dropWhile_head_ne {c : Char} {l : List Char}
    (h : l.head? ≠ some c) : l.dropWhile (· = c) = l := by
  cases l with
  | nil => rfl
  | cons x xs =>
    rw [List.dropWhile_cons, if_neg]
    simp only [decide_eq_true_eq]
    intro hx
    exact h (by rw [hx]; rfl)

theorem trimEndChar_no {c : Char} {s : List Char}
    (h : s.getLast? ≠ some c) : trimEndChar c s = s := by
  unfold trimEndChar
  rw [dropWhile_head_ne (by rwa [List.head?_reverse]), List.reverse_reverse]

theorem trimEndChar_append {c : Char} {s : List Char}
    (h : s.getLast? ≠ some c) : trimEndChar c (s ++ [c]) = s := by
  unfold trimEndChar
  have hr : (s ++ [c]).reverse = c :: s.reverse := by simp
  rw [hr, List.dropWhile_cons, if_pos (by simp), dropWhile_head_ne
    (by rwa [List.head?_reverse]), List.reverse_reverse]

theorem trimEndPatAux_no {pat s : List Char} (h : ¬ (pat <:+ s)) :
    ∀ fuel, trimEndPatAux pat fuel s = s := by
  intro fuel
  cases fuel with
  | zero => rfl
  | succ k =>
    unfold trimEndPatAux
    rw [if_neg]
    intro hcond
    rw [Bool.and_eq_true] at hcond
    exact h (by simpa using hcond.2)

theorem trimEndPat_no {pat s : List Char} (h : ¬ (pat <:+ s)) :
    trimEndPat pat s = s := trimEndPatAux_no h _

theorem trimEndPatAux_append {pat s : List Char} (hne : pat ≠ [])
    (h : ¬ (pat <:+ s)) (fuel : Nat) :
    trimEndPatAux pat (fuel + 1) (s ++ pat) = s := by
  unfold trimEndPatAux
  rw [if_pos]
  · have hlen : (s ++ pat).length - pat.length = s.length := by
      simp only [List.length_append]
      omega
    rw [hlen, List.take_left, trimEndPatAux_no h]
  · rw [Bool.and_eq_true]
    constructor
    · simpa using hne
    · simp

theorem trimEndPat_append_once {pat s : List Char} (hne : pat ≠ [])
    (h : ¬ (pat <:+ s)) : trimEndPat pat (s ++ pat) = s := by
  unfold trimEndPat
  have hlen : (s ++ pat).length = (s.length + (pat.length - 1)) + 1 := by
    simp only [List.length_append]
    cases hp : pat with
    | nil => exact absurd hp hne
    | cons x xs => simp [hp]; omega
  rw [hlen]
  exact trimEndPatAux_append hne h _

theorem suffix_split {pat a b : List Char} (h : pat <:+ a ++ b) :
    pat <:+ b ∨ ∃ p1, p1 <:+ a ∧ pat = p1 ++ b := by
  obtain ⟨t, ht⟩ := h
  rcases List.append_eq_append_iff.mp ht with ⟨a2, ha, hp⟩ | ⟨c2, hc, hb⟩
  · exact Or.inr ⟨a2, ⟨t, ha.symm⟩, hp⟩
  · exact Or.inl ⟨c2, hb.symm⟩

theorem not_git_suffix_https {q : List Char} (hq : ¬ (".git".data <:+ q)) :
    ¬ (".git".data <:+ ("https://".data ++ q)) := by
  intro hs
  rcases suffix_split hs with h | ⟨p1, hp1, hpat⟩
  · exact hq h
  · cases p1 with
    | nil => exact hq (hpat ▸ List.suffix_refl q)
    | cons x p1t =>
      have hx : x = '.' := by
        have := congrArg List.head? hpat
        simpa using this.symm
      have hmem : ('.' : Char) ∈ "https://".data := hp1.subset (hx ▸ List.mem_cons_self x p1t)
      exact absurd hmem (by decide)

theorem suffix_getLast {q l : List Char} (h : q <:+ l) (hne : q ≠ []) :
    l.getLast? = q.getLast? := by
  obtain ⟨t, rfl⟩ := h
  rw [List.getLast?_append]
  cases hq : q.getLast? with
  | none => exact absurd (List.getLast?_eq_none_iff.mp hq) hne
  | some y => rfl

theorem not_git_suffix_of_last_slash {s : List Char} (h : s.getLast? = some '/') :
    ¬ (".git".data <:+ s) := by
  intro hs
  have := suffix_getLast hs (by decide)
  rw [h] at this
  exact absurd this (by decide)

theorem isPrefixOf_append_self (a b : List Char) : a.isPrefixOf (a ++ b) = true := by
  simp

theorem getLast_append_right {a b : List Char} (hb : b ≠ []) :
    (a ++ b).getLast? = b.getLast? := by
  rw [List.getLast?_append]
  cases hbl : b.getLast? with
  | none => exact absurd (List.getLast?_eq_none_iff.mp hbl) hb
  | some y => rfl

theorem gitat_not_pfx_https (q : List Char) :
    "git@".data.isPrefixOf ("https://".data ++ q) = false := rfl

/-- Behaviour of `parse_remote_url` on any `git@`-form URL with a colon whose
host part contains no colon. -/
theorem parse_git_at (host pp : List Char) (hhost : ':' ∉ host) :
    parse_remote_url ⟨("git@".data ++ host) ++ ':' :: pp⟩ =
      some ⟨"https://" ++ (⟨host⟩ : String) ++ "/" ++
        (⟨trimEndPat ".git".data (trimEndChar '/' pp)⟩ : String) ++ "/"⟩ := by
  unfold parse_remote_url
  rw [if_pos]
  · have hnotin : ':' ∉ "git@".data ++ host := by
      rw [List.mem_append]
      rintro (h | h)
      · exact absurd h (by decide)
      · exact hhost h
    rw [show String.data ⟨("git@".data ++ host) ++ ':' :: pp⟩ =
      ("git@".data ++ host) ++ ':' :: pp from rfl]
    rw [splitOnce_append_no pp hnotin]
    dsimp only
    rw [if_pos (isPrefixOf_append_self "git@".data host)]
    rw [List.drop_left' (show ("git@".data).length = 4 from rfl)]
  · show ("git@".data).isPrefixOf (("git@".data ++ host) ++ ':' :: pp) = true
    rw [List.append_assoc]
    exact isPrefixOf_append_self "git@".data (host ++ ':' :: pp)

/-- C8 counterexample: `https://github.com/user/repo.git/` is of the claimed
form (`https://host/owner/repo` suffixed by `.git` and a trailing `/`), yet
the https branch trims `.git` only at the very end of the URL - before the
slash check and never after removing a slash - so the produced base URL keeps
the `.git` and differs from the claimed `https://github.com/user/repo/`. -/
theorem c8_counterexample :
    parse_remote_url "https://github.com/user/repo.git/" =
      some ⟨"https://github.com/user/repo.git/"⟩ ∧
    ("https://github.com/user/repo.git/" : String) ≠ "https://github.com/user/repo/" := by
  constructor
  · decide
  · decide

theorem remote_some_eq {a : List Char} {s : String} (h : a = s.data) :
    (some (⟨⟨a⟩⟩ : RemoteInfo) : Option RemoteInfo) = some ⟨s⟩ := by
  rw [h]

/-- C8 as amended: a `git@host:path` URL (host without colon) with optional
`.git` and/or trailing `/` suffixes yields `https://host/path/`; an
`https://`-prefixed URL with an optional `.git` suffix or an optional trailing
`/` yields the URL with `.git` trimmed and a trailing slash ensured - but with
the combined suffix `.git/` the `.git` is kept; a URL with neither prefix, or
a `git@` URL without a colon, yields none; and every produced base URL ends
with `/`. -/
theorem c8_amended (host path url : String)
    (hhost : ':' ∉ host.data)
    (hpath1 : path.data ≠ [])
    (hpath2 : ¬ (".git".data <:+ path.data))
    (hpath3 : path.data.getLast? ≠ some '/') :
    (∀ sfx ∈ (["", ".git", "/", ".git/"] : List String),
      parse_remote_url ("git@" ++ host ++ ":" ++ path ++ sfx) =
        some ⟨"https://" ++ host ++ "/" ++ path ++ "/"⟩) ∧
    (∀ sfx ∈ (["", ".git", "/"] : List String),
      parse_remote_url ("https://" ++ path ++ sfx) =
        some ⟨"https://" ++ path ++ "/"⟩) ∧
    parse_remote_url ("https://" ++ path ++ ".git/") =
      some ⟨"https://" ++ path ++ ".git/"⟩ ∧
    ("git@".data.isPrefixOf url.data = false →
      "https://".data.isPrefixOf url.data = false →
      parse_remote_url url = none) ∧
    ("git@".data.isPrefixOf url.data = true → ':' ∉ url.data →
      parse_remote_url url = none) ∧
    (∀ r, parse_remote_url url = some r → r.base_url.data.getLast? = some '/') := by
  have hgit_ne : (".git".data : List Char) ≠ [] := by decide
  have hpath_last : ∀ q : List Char, q.getLast? ≠ some '/' →
      trimEndChar '/' q = q := fun q hq => trimEndChar_no hq
  have hgitlast : (path.data ++ ".git".data).getLast? = some 't' := by
    rw [getLast_append_right (by decide)]
    rfl
  refine ⟨?_, ?_, ?_, ?_, ?_, ?_⟩
  · intro sfx hsfx
    have hurl : ∀ s : String, ("git@" ++ host ++ ":" ++ path ++ s : String) =
        ⟨("git@".data ++ host.data) ++ ':' :: (path.data ++ s.data)⟩ := by
      intro s
      apply congrArg String.mk
      show ((("git@".data ++ host.data) ++ ":".data) ++ path.data) ++ s.data = _
      simp [List.append_assoc]
    simp only [List.mem_cons, List.not_mem_nil, or_false] at hsfx
    rcases hsfx with rfl | rfl | rfl | rfl
    · rw [hurl "", parse_git_at host.data _ hhost]
      rw [show (path.data ++ "".data : List Char) = path.data by simp]
      rw [hpath_last path.data hpath3, trimEndPat_no hpath2]
    · rw [hurl ".git", parse_git_at host.data _ hhost]
      rw [trimEndChar_no (by rw [hgitlast]; decide)]
      rw [trimEndPat_append_once hgit_ne hpath2]
    · rw [hurl "/", parse_git_at host.data _ hhost]
      rw [show ("/" : String).data = ['/'] from rfl]
      rw [trimEndChar_append hpath3, trimEndPat_no hpath2]
    · rw [hurl ".git/", parse_git_at host.data _ hhost]
      rw [show (".git/" : String).data = ".git".data ++ ['/'] from rfl]
      rw [← List.append_assoc, trimEndChar_append (by rw [hgitlast]; decide)]
      rw [trimEndPat_append_once hgit_ne hpath2]
  · intro sfx hsfx
    have hurl : ∀ s : String, ("https://" ++ path ++ s : String) =
        ⟨"https://".data ++ (path.data ++ s.data)⟩ := by
      intro s
      apply congrArg String.mk
      show ("https://".data ++ path.data) ++ s.data = _
      simp [List.append_assoc]
    have hstep : ∀ q : List Char,
        parse_remote_url ⟨"https://".data ++ q⟩ =
          (let wg := trimEndPat ".git".data ("https://".data ++ q)
           some ⟨⟨if wg.getLast? = some '/' then wg else wg ++ ['/']⟩⟩) := by
      intro q
      unfold parse_remote_url
      rw [show String.data ⟨"https://".data ++ q⟩ = "https://".data ++ q from rfl]
      rw [gitat_not_pfx_https q]
      simp only [Bool.false_eq_true, if_false]
      rw [if_pos (isPrefixOf_append_self "https://".data q)]
    simp only [List.mem_cons, List.not_mem_nil, or_false] at hsfx
    rcases hsfx with rfl | rfl | rfl
    · rw [hurl "", hstep]
      rw [show (path.data ++ "".data : List Char) = path.data by simp]
      dsimp only
      rw [trimEndPat_no (not_git_suffix_https hpath2)]
      rw [if_neg (by rw [getLast_append_right hpath1]; exact hpath3)]
      exact remote_some_eq rfl
    · rw [hurl ".git", hstep]
      dsimp only
      rw [← List.append_assoc, trimEndPat_append_once hgit_ne (not_git_suffix_https hpath2)]
      rw [if_neg (by rw [getLast_append_right hpath1]; exact hpath3)]
      exact remote_some_eq rfl
    · rw [hurl "/", hstep]
      dsimp only
      have hlast : ("https://".data ++ (path.data ++ ("/" : String).data)).getLast? =
          some '/' := by
        rw [getLast_append_right (by simp), getLast_append_right (by decide)]
        rfl
      rw [trimEndPat_no (not_git_suffix_of_last_slash hlast), if_pos hlast]
  · have hurl : ("https://" ++ path ++ ".git/" : String) =
        ⟨"https://".data ++ (path.data ++ (".git/" : String).data)⟩ := by
      apply congrArg String.mk
      show ("https://".data ++ path.data) ++ (".git/" : String).data = _
      simp [List.append_assoc]
    have hstep : parse_remote_url ⟨"https://".data ++ (path.data ++ (".git/" : String).data)⟩ =
        (let wg := trimEndPat ".git".data
          ("https://".data ++ (path.data ++ (".git/" : String).data))
         some ⟨⟨if wg.getLast? = some '/' then wg else wg ++ ['/']⟩⟩) := by
      unfold parse_remote_url
      rw [show String.data ⟨"https://".data ++ (path.data ++ (".git/" : String).data)⟩ =
        "https://".data ++ (path.data ++ (".git/" : String).data) from rfl]
      rw [gitat_not_pfx_https _]
      simp only [Bool.false_eq_true, if_false]
      rw [if_pos (isPrefixOf_append_self "https://".data _)]
    rw [hurl, hstep]
    dsimp only
    have hlast : ("https://".data ++ (path.data ++ (".git/" : String).data)).getLast? =
        some '/' := by
      rw [getLast_append_right (by simp), getLast_append_right (by decide)]
      rfl
    rw [trimEndPat_no (not_git_suffix_of_last_slash hlast), if_pos hlast]
  · intro h1 h2
    unfold parse_remote_url
    rw [if_neg (by simp [h1]), if_neg (by simp [h2])]
  · intro h1 h2
    unfold parse_remote_url
    rw [if_pos h1, splitOnce_none h2]
  · intro r hr
    unfold parse_remote_url at hr
    split_ifs at hr with hg hh
    · cases hsp : splitOnce ':' url.data with
      | none => rw [hsp] at hr; exact absurd hr (by simp)
      | some pr =>
        obtain ⟨hp, pp⟩ := pr
        rw [hsp] at hr
        dsimp only at hr
        injection hr with hr2
        rw [← hr2]
        show (("https://" ++ _ ++ "/" ++ _ : String) ++ "/").data.getLast? = some '/'
        rw [String.data_append]
        rw [getLast_append_right (by decide)]
        rfl
    · dsimp only at hr
      injection hr with hr2
      rw [← hr2]
      dsimp only
      split_ifs with hlast
      · exact hlast
      · show (_ ++ ['/']).getLast? = some '/'
        rw [getLast_append_right (by decide)]
        rfl

/-- Witness for C8 (amended) on the unit-test URLs of the repository. -/
theorem c8_amended_witness :
    parse_remote_url "git@github.com:user/repo.git" =
      some ⟨"https://github.com/user/repo/"⟩ ∧
    parse_remote_url "https://github.com/user/repo" =
      some ⟨"https://github.com/user/repo/"⟩ ∧
    parse_remote_url "not a url" = none := by
  have h := c8_amended "github.com" "user/repo" "not a url"
    (by decide) (by decide) (by decide) (by decide)
  have h2 := c8_amended "github.com" "github.com/user/repo" "not a url"
    (by decide) (by decide) (by decide) (by decide)
  refine ⟨?_, ?_, h.2.2.2.1 (by decide) (by decide)⟩
  · rw [show ("git@github.com:user/repo.git" : String) =
      "git@" ++ "github.com" ++ ":" ++ "user/repo" ++ ".git" by decide,
      show ("https://github.com/user/repo/" : String) =
      "https://" ++ "github.com" ++ "/" ++ "user/repo" ++ "/" by decide]
    exact h.1 ".git" (by simp)
  · rw [show ("https://github.com/user/repo" : String) =
      "https://" ++ "github.com/user/repo" ++ "" by decide,
      show ("https://github.com/user/repo/" : String) =
      "https://" ++ "github.com/user/repo" ++ "/" by decide]
    exact h2.2.1 "" (by simp)

end Changelogger
